import Mathlib

/-!
Shallow embedding of the TextPerfect correction-merging engine,
translated from `src/services/correctionService2.ts` and the caller
`src/components/Footer.tsx` (`handleCorrect`).

Strings are modelled as lists of characters (`Str`); JavaScript
`substring` with non-negative, ordered arguments is `take`/`drop`
(which clamps exactly as `substring` does).  JavaScript numbers used
for confidence arithmetic are modelled as rationals; the running
`currentEnd` of the grouper (initialised to `-1`) and the adjusted
highlight positions (offset plus a possibly negative running delta)
are modelled as integers, with the `substring` clamp of a negative
index to `0` rendered by `Int.toNat`.
-/

abbrev Str := List Char

/-- One provider match (the fields of the LanguageTool response the
service actually reads): `offset`, `length`, the list of replacement
values, and `rule.category.id`. -/
structure LTMatch where
  offset : Nat
  length : Nat
  replacements : List Str
  category : String
  deriving DecidableEq, Repr

/-- An entry of `correctionInfos` in `correctText`. -/
structure CorrInfo where
  offset : Nat
  length : Nat
  original : Str
  replacement : Str
  deriving DecidableEq, Repr

/-- An entry of `correctionParts` (highlight metadata). -/
structure CorrPart where
  original : Str
  replacement : Str
  position : Int
  offset : Nat
  deriving DecidableEq, Repr

/-- The `improvementOptions` record of `correctText`. -/
structure CorrOptions where
  confidenceThreshold : ℚ
  contextAware : Bool
  preserveCapitalization : Bool
  highlightCorrections : Bool
  deriving DecidableEq, Repr

/-- The defaults destructured at the top of `correctText`. -/
def defaultOptions : CorrOptions :=
  { confidenceThreshold := 0, contextAware := true,
    preserveCapitalization := true, highlightCorrections := false }

/-- The `CorrectionResult` interface. -/
structure CorrectionResult where
  text : Str
  correctedParts : Option (List CorrPart)
  deriving DecidableEq, Repr

/-- JavaScript `s.substring(a, b)` for `0 ≤ a ≤ b`. -/
def jsSubstring (s : Str) (a b : Nat) : Str := (s.take b).drop a

/-- Sort key of `sort((a, b) => a.offset - b.offset)` on matches. -/
def matchOffsetLE (a b : LTMatch) : Prop := a.offset ≤ b.offset

instance : DecidableRel matchOffsetLE := fun a b => Nat.decLe a.offset b.offset

instance : IsTotal LTMatch matchOffsetLE := ⟨fun a b => Nat.le_total a.offset b.offset⟩

instance : IsTrans LTMatch matchOffsetLE := ⟨fun _ _ _ h h2 => Nat.le_trans h h2⟩

/-- Sort key of `sort((a, b) => b.offset - a.offset)` (descending) on infos. -/
def infoOffsetGE (a b : CorrInfo) : Prop := b.offset ≤ a.offset

instance : DecidableRel infoOffsetGE := fun a b => Nat.decLe b.offset a.offset

instance : IsTotal CorrInfo infoOffsetGE := ⟨fun a b => Nat.le_total b.offset a.offset⟩

instance : IsTrans CorrInfo infoOffsetGE := ⟨fun _ _ _ h h2 => Nat.le_trans h2 h⟩

/-- Sort key of `sort((a, b) => a.position - b.position)` (ascending) on infos
(`position` of a `finalPositions` entry is its original `offset`). -/
def infoOffsetLE (a b : CorrInfo) : Prop := a.offset ≤ b.offset

instance : DecidableRel infoOffsetLE := fun a b => Nat.decLe a.offset b.offset

instance : IsTotal CorrInfo infoOffsetLE := ⟨fun a b => Nat.le_total a.offset b.offset⟩

instance : IsTrans CorrInfo infoOffsetLE := ⟨fun _ _ _ h h2 => Nat.le_trans h h2⟩

/-- The scan loop of `groupOverlappingMatches`: walks the sorted match
list carrying the accumulated `groups`, the `currentGroup` and
`currentEnd` (a JS number initialised to `-1`, hence `Int`). -/
def groupScan : List LTMatch → List (List LTMatch) → List LTMatch → Int → List (List LTMatch)
  | [], groups, cur, _ => if cur.isEmpty then groups else groups ++ [cur]
  | m :: rest, groups, cur, currentEnd =>
      if (m.offset : Int) > currentEnd then
        groupScan rest (if cur.isEmpty then groups else groups ++ [cur]) [m]
          ((m.offset : Int) + (m.length : Int))
      else
        groupScan rest groups (cur ++ [m]) (max currentEnd ((m.offset : Int) + (m.length : Int)))

/-- `groupOverlappingMatches`: stable-sort by ascending offset, then scan. -/
def groupOverlappingMatches (ms : List LTMatch) : List (List LTMatch) :=
  groupScan (ms.insertionSort matchOffsetLE) [] [] (-1)

/-- `estimateConfidence`. -/
def estimateConfidence (m : LTMatch) : ℚ :=
  if m.replacements.length = 0 then 0
  else
    let c0 : ℚ := 5 / 10
    let c1 := if m.category = "GRAMMAR" then c0 + 2 / 10 else c0
    let c2 := if m.category = "TYPOS" then c1 + 15 / 100 else c1
    let c3 := c2 - min (3 / 10) ((m.replacements.length : ℚ) * (3 / 100))
    let c4 := if m.length > 3 then c3 + 1 / 10 else c3
    min 1 (max 0 c4)

/-- The body of the `reduce` callback in `selectBestMatch`. -/
def selectStep (contextAware : Bool) (best current : LTMatch) : LTMatch :=
  if current.category = "GRAMMAR" ∧ best.category ≠ "GRAMMAR" then current
  else if contextAware = true ∧ current.replacements.length > 0 ∧
      best.replacements.length > 0 ∧ estimateConfidence best < estimateConfidence current then
    current
  else if best.length < current.length then current else best

/-- `selectBestMatch`: a singleton group returns its member; otherwise
`reduce` with initial value `group[0]` runs the step over the whole
group.  The empty group (never produced by the grouper) yields `none`. -/
def selectBestMatch (group : List LTMatch) (contextAware : Bool) : Option LTMatch :=
  match group with
  | [] => none
  | g0 :: _ =>
    if group.length = 1 then some g0
    else some (group.foldl (selectStep contextAware) g0)

/-- Character-level model of JavaScript `toUpperCase`. -/
def strToUpper (s : Str) : Str := s.map Char.toUpper

/-- `preserveOriginalCapitalization`. -/
def preserveOriginalCapitalization (original replacement : Str) : Str :=
  if original = [] ∨ replacement = [] then replacement
  else if original = strToUpper original then strToUpper replacement
  else
    match original, replacement with
    | o0 :: _, r0 :: rs => if o0 = o0.toUpper then r0.toUpper :: rs else r0 :: rs
    | _, _ => replacement

/-- The collection loop of `correctText`: one pass over the grouped
matches producing `correctionInfos`. -/
def collectCorrections (text : Str) (threshold : ℚ) (contextAware preserveCap : Bool) :
    List (List LTMatch) → List CorrInfo
  | [] => []
  | g :: gs =>
    let rest := collectCorrections text threshold contextAware preserveCap gs
    match selectBestMatch g contextAware with
    | none => rest
    | some best =>
      if estimateConfidence best < threshold then rest
      else
        match best.replacements with
        | [] => rest
        | r0 :: _ =>
          let original := jsSubstring text best.offset (best.offset + best.length)
          let replacement :=
            if preserveCap then preserveOriginalCapitalization original r0 else r0
          { offset := best.offset, length := best.length,
            original := original, replacement := replacement } :: rest

/-- One iteration of the descending application loop:
`correctedText.substring(0, offset) + replacement + correctedText.substring(offset + length)`. -/
def spliceOne (t : Str) (c : CorrInfo) : Str :=
  t.take c.offset ++ c.replacement ++ t.drop (c.offset + c.length)

/-- The highlight pass: re-splices the original text in ascending order,
carrying the running `offsetDelta`; the splice bounds are JS numbers
(`position + offsetDelta`, possibly negative, clamped by `substring`). -/
def highlightLoop : Str → Int → List CorrInfo → Str × List CorrPart
  | t, _, [] => (t, [])
  | t, delta, c :: cs =>
    let adjusted : Int := (c.offset : Int) + delta
    let t2 := t.take adjusted.toNat ++ c.replacement ++
      t.drop (adjusted + (c.original.length : Int)).toNat
    let p := highlightLoop t2 (delta + (c.replacement.length : Int) - (c.original.length : Int)) cs
    (p.1, { original := c.original, replacement := c.replacement,
            position := adjusted, offset := c.offset } :: p.2)

/-- `correctionInfos` as computed by `correctText` for a given text,
options and provider match list. -/
def collectedInfos (text : Str) (opts : CorrOptions) (ms : List LTMatch) : List CorrInfo :=
  collectCorrections text opts.confidenceThreshold opts.contextAware
    opts.preserveCapitalization (groupOverlappingMatches ms)

/-- The pure part of `correctText` after the provider response arrives:
collect, sort descending, splice; if highlighting is on and at least one
correction was applied, redo the splice ascending with the delta pass
and return its text and parts. -/
def correctPipeline (text : Str) (opts : CorrOptions) (ms : List LTMatch) : CorrectionResult :=
  let infos := collectedInfos text opts ms
  let sortedDesc := infos.insertionSort infoOffsetGE
  let correctedText := sortedDesc.foldl spliceOne text
  if opts.highlightCorrections = true ∧ 0 < sortedDesc.length then
    let sortedAsc := sortedDesc.insertionSort infoOffsetLE
    let p := highlightLoop text 0 sortedAsc
    { text := p.1, correctedParts := some p.2 }
  else
    { text := correctedText,
      correctedParts := if opts.highlightCorrections then some [] else none }

/-- `correctText` with the provider call's outcome passed in explicitly:
the `try/catch` re-raises every provider failure as the single generic
error `'Échec de la correction'`. -/
def correctTextE (text : Str) (opts : CorrOptions)
    (provider : Except String (List LTMatch)) : Except String CorrectionResult :=
  match provider with
  | .error _ => .error "Échec de la correction"
  | .ok ms => .ok (correctPipeline text opts ms)

/-- The whitespace characters recognised by JavaScript `trim` (the ones
expressible here). -/
def jsIsSpace (c : Char) : Bool :=
  c = ' ' || c = '\t' || c = '\n' || c = '\r' || c = '\x0b' || c = '\x0c'

/-- JavaScript `trim`: strip whitespace at both ends. -/
def jsTrim (s : Str) : Str :=
  ((s.dropWhile jsIsSpace).reverse.dropWhile jsIsSpace).reverse

/-- `handleCorrect` in `Footer.tsx`: returns early (`none`, no provider
request) when the trimmed content is empty, otherwise runs the
correction with the provider outcome. -/
def handleCorrect (content : Str) (opts : CorrOptions)
    (provider : Except String (List LTMatch)) : Option (Except String CorrectionResult) :=
  if jsTrim content = [] then none
  else some (correctTextE content opts provider)

/-! ## Basic lemmas -/

theorem estimateConfidence_nonneg_le_one (m : LTMatch) :
    0 ≤ estimateConfidence m ∧ estimateConfidence m ≤ 1 := by
  unfold estimateConfidence
  split
  · norm_num
  · exact ⟨le_min (by norm_num) (le_max_left _ _), min_le_left _ _⟩

theorem estimateConfidence_closed_form (m : LTMatch) (h : m.replacements ≠ []) :
    estimateConfidence m =
      min 1 (max 0 ((5 / 10 : ℚ)
        + (if m.category = "GRAMMAR" then 2 / 10 else 0)
        + (if m.category = "TYPOS" then 15 / 100 else 0)
        - min (3 / 10) ((m.replacements.length : ℚ) * (3 / 100))
        + (if 3 < m.length then 1 / 10 else 0))) := by
  unfold estimateConfidence
  rw [if_neg (by simpa using h)]
  split_ifs <;> ring_nf

/-- C5: for a match with at least one alternative, `estimateConfidence`
returns 0.5, plus 0.2 for GRAMMAR, plus 0.15 for TYPOS, minus
`min 0.3 (alternatives * 0.03)`, plus 0.1 when the span length exceeds 3,
clamped to `[0,1]`; and for every match the value lies in `[0,1]`. -/
theorem estimateConfidence_formula_and_clamped :
    (∀ m : LTMatch, m.replacements ≠ [] →
      estimateConfidence m =
        min 1 (max 0 ((5 / 10 : ℚ)
          + (if m.category = "GRAMMAR" then 2 / 10 else 0)
          + (if m.category = "TYPOS" then 15 / 100 else 0)
          - min (3 / 10) ((m.replacements.length : ℚ) * (3 / 100))
          + (if 3 < m.length then 1 / 10 else 0)))) ∧
    (∀ m : LTMatch, 0 ≤ estimateConfidence m ∧ estimateConfidence m ≤ 1) :=
  ⟨estimateConfidence_closed_form, estimateConfidence_nonneg_le_one⟩

/-- Witness for C5 at the pathological input of the spec: a STYLE match
with 1000 alternatives and span length 5. -/
theorem estimateConfidence_formula_witness :
    estimateConfidence ⟨0, 5, List.replicate 1000 ([] : Str), "STYLE"⟩ = 3 / 10 := by
  rw [estimateConfidence_formula_and_clamped.1 _
    (List.ne_nil_of_length_pos (by norm_num))]
  rw [if_neg (by decide : ¬("STYLE" = "GRAMMAR")), if_neg (by decide : ¬("STYLE" = "TYPOS"))]
  norm_num

/-- C7: `preserveOriginalCapitalization` upper-cases the whole
replacement when the original equals its own upper-casing, upper-cases
only the first character when the original's first character is
upper-case, and otherwise (or on empty input) returns the replacement
unchanged; including the four concrete round-trips of the spec. -/
theorem preserveCapitalization_cases :
    (∀ o r : Str, o = [] ∨ r = [] → preserveOriginalCapitalization o r = r) ∧
    (∀ o r : Str, o ≠ [] → r ≠ [] → o = strToUpper o →
      preserveOriginalCapitalization o r = strToUpper r) ∧
    (∀ (o0 : Char) (ot : Str) (r0 : Char) (rt : Str),
      o0 :: ot ≠ strToUpper (o0 :: ot) → o0 = o0.toUpper →
      preserveOriginalCapitalization (o0 :: ot) (r0 :: rt) = r0.toUpper :: rt) ∧
    (∀ (o0 : Char) (ot : Str) (r : Str),
      o0 :: ot ≠ strToUpper (o0 :: ot) → o0 ≠ o0.toUpper →
      preserveOriginalCapitalization (o0 :: ot) r = r) ∧
    preserveOriginalCapitalization "HELLO".toList "bonjour".toList = "BONJOUR".toList ∧
    preserveOriginalCapitalization "Hello".toList "bonjour".toList = "Bonjour".toList ∧
    preserveOriginalCapitalization "hello".toList "bonjour".toList = "bonjour".toList ∧
    preserveOriginalCapitalization "".toList "x".toList = "x".toList := by
  refine ⟨?_, ?_, ?_, ?_, by decide, by decide, by decide, by decide⟩
  · intro o r h
    unfold preserveOriginalCapitalization
    rw [if_pos h]
  · intro o r ho hr hup
    unfold preserveOriginalCapitalization
    rw [if_neg (by simp [ho, hr]), if_pos hup]
  · intro o0 ot r0 rt hne h0
    unfold preserveOriginalCapitalization
    rw [if_neg (by simp), if_neg hne]
    simp [h0.symm]
  · intro o0 ot r hne h0
    by_cases hr : r = []
    · subst hr
      unfold preserveOriginalCapitalization
      rw [if_pos (Or.inr rfl)]
    · obtain ⟨r0, rt, rfl⟩ := List.exists_cons_of_ne_nil hr
      unfold preserveOriginalCapitalization
      rw [if_neg (by simp), if_neg hne]
      simp [h0]

/-- Witness for C7: the fully-upper-case branch applied at
`("HELLO", "bonjour")`. -/
theorem preserveCapitalization_cases_witness :
    preserveOriginalCapitalization "HELLO".toList "bonjour".toList =
      strToUpper "bonjour".toList :=
  preserveCapitalization_cases.2.1 "HELLO".toList "bonjour".toList
    (by decide) (by decide) (by decide)

/-- C8: every provider failure is re-raised as the single generic error
`'Échec de la correction'`, and a successful result can only arise from a
successful provider response (no partial result escapes the catch). -/
theorem providerFailure_generic :
    (∀ (text : Str) (opts : CorrOptions) (e : String),
      correctTextE text opts (Except.error e) = Except.error "Échec de la correction") ∧
    (∀ (text : Str) (opts : CorrOptions) (pr : Except String (List LTMatch))
      (r : CorrectionResult), correctTextE text opts pr = Except.ok r →
        ∃ ms, pr = Except.ok ms ∧ r = correctPipeline text opts ms) := by
  refine ⟨fun _ _ _ => rfl, fun text opts pr r h => ?_⟩
  cases pr with
  | error e => exact absurd h (by simp [correctTextE])
  | ok ms => exact ⟨ms, rfl, by simpa [correctTextE] using h.symm⟩

/-- Witness for C8 at a concrete successful provider response. -/
theorem providerFailure_generic_witness :
    ∃ ms, (Except.ok [] : Except String (List LTMatch)) = Except.ok ms ∧
      correctPipeline [] defaultOptions [] = correctPipeline [] defaultOptions ms :=
  providerFailure_generic.2 [] defaultOptions (Except.ok [])
    (correctPipeline [] defaultOptions []) rfl

theorem jsTrim_eq_nil_of_all_space (s : Str) (h : ∀ c ∈ s, jsIsSpace c = true) :
    jsTrim s = [] := by
  unfold jsTrim
  rw [List.dropWhile_eq_nil_iff.2 h]
  simp

/-- C9: blank (whitespace-only) input makes `handleCorrect` return
early: the result is `none` (no provider request) and is independent of
whatever the provider would have answered. -/
theorem blankInput_noCall :
    ∀ (content : Str) (opts : CorrOptions) (p q : Except String (List LTMatch)),
      (∀ c ∈ content, jsIsSpace c = true) →
      handleCorrect content opts p = none ∧
        handleCorrect content opts p = handleCorrect content opts q := by
  intro content opts p q h
  unfold handleCorrect
  rw [if_pos (jsTrim_eq_nil_of_all_space content h)]
  exact ⟨rfl, by rw [if_pos (jsTrim_eq_nil_of_all_space content h)]⟩

/-- Witness for C9 at the two-space string. -/
theorem blankInput_noCall_witness :
    handleCorrect "  ".toList defaultOptions (Except.ok []) = none :=
  (blankInput_noCall "  ".toList defaultOptions (Except.ok [])
    (Except.error "x") (by decide)).1

/-! ## Match selection (C4) and zero-alternative edits (C6) -/

theorem selectStep_self (ca : Bool) (x : LTMatch) : selectStep ca x x = x := by
  unfold selectStep
  rw [if_neg (by simp), if_neg (by simp), if_neg (by simp)]

theorem selectStep_eq_or (ca : Bool) (b c : LTMatch) :
    selectStep ca b c = b ∨ selectStep ca b c = c := by
  unfold selectStep
  split_ifs <;> simp

theorem foldl_selectStep_mem (ca : Bool) :
    ∀ (l : List LTMatch) (a : LTMatch), l.foldl (selectStep ca) a ∈ a :: l := by
  intro l
  induction l with
  | nil => intro a; simp
  | cons x l ih =>
    intro a
    have h := ih (selectStep ca a x)
    rcases selectStep_eq_or ca a x with h2 | h2 <;>
      · rw [List.foldl_cons]
        rcases List.mem_cons.1 h with h3 | h3 <;> simp_all

/-- C4: `selectBestMatch` on a non-empty group returns a member of the
group, obtained by a left-to-right reduction from the first element; a
singleton group returns its member; and the reduction step prefers a
GRAMMAR candidate over a non-GRAMMAR incumbent, then (contextAware, both
with alternatives) the higher confidence, then the larger span length
with ties keeping the incumbent. -/
theorem selectBestMatch_spec :
    (∀ (m : LTMatch) (ca : Bool), selectBestMatch [m] ca = some m) ∧
    (∀ (g0 : LTMatch) (rest : List LTMatch) (ca : Bool),
      selectBestMatch (g0 :: rest) ca = some (rest.foldl (selectStep ca) g0)) ∧
    (∀ (g : List LTMatch) (ca : Bool) (b : LTMatch), selectBestMatch g ca = some b → b ∈ g) ∧
    (∀ (ca : Bool) (best cur : LTMatch),
      cur.category = "GRAMMAR" → best.category ≠ "GRAMMAR" → selectStep ca best cur = cur) ∧
    (∀ best cur : LTMatch,
      ¬(cur.category = "GRAMMAR" ∧ best.category ≠ "GRAMMAR") →
      cur.replacements ≠ [] → best.replacements ≠ [] →
      estimateConfidence best < estimateConfidence cur →
      selectStep true best cur = cur) ∧
    (∀ (ca : Bool) (best cur : LTMatch),
      ¬(cur.category = "GRAMMAR" ∧ best.category ≠ "GRAMMAR") →
      ¬(ca = true ∧ cur.replacements.length > 0 ∧ best.replacements.length > 0 ∧
        estimateConfidence best < estimateConfidence cur) →
      selectStep ca best cur = if best.length < cur.length then cur else best) := by
  have hcons : ∀ (g0 : LTMatch) (rest : List LTMatch) (ca : Bool),
      selectBestMatch (g0 :: rest) ca =
        if (g0 :: rest).length = 1 then some g0
        else some ((g0 :: rest).foldl (selectStep ca) g0) := fun _ _ _ => rfl
  refine ⟨fun m ca => rfl, ?_, ?_, ?_, ?_, ?_⟩
  · intro g0 rest ca
    cases rest with
    | nil => rfl
    | cons r1 rest =>
      rw [hcons, if_neg (by simp), List.foldl_cons, selectStep_self]
  · intro g ca b hb
    cases g with
    | nil => exact absurd hb (by simp [selectBestMatch])
    | cons g0 rest =>
      rw [hcons] at hb
      split_ifs at hb with h1
      · exact (Option.some_inj.1 hb) ▸ List.mem_cons_self g0 rest
      · have hm := foldl_selectStep_mem ca (g0 :: rest) g0
        rw [← Option.some_inj.1 hb]
        rcases List.mem_cons.1 hm with h2 | h2
        · rw [h2]; exact List.mem_cons_self g0 rest
        · exact h2
  · intro ca best cur h1 h2
    unfold selectStep
    rw [if_pos ⟨h1, h2⟩]
  · intro best cur h1 hc hb hq
    unfold selectStep
    rw [if_neg h1, if_pos ⟨rfl, by simpa [List.length_pos] using hc,
      by simpa [List.length_pos] using hb, hq⟩]
  · intro ca best cur h1 h2
    unfold selectStep
    rw [if_neg h1, if_neg h2]

/-- Witness for C4: the GRAMMAR preference rule applied at two concrete
matches, and a concrete two-element reduction. -/
theorem selectBestMatch_spec_witness :
    selectStep true ⟨0, 2, [['a']], "TYPOS"⟩ ⟨0, 3, [['b']], "GRAMMAR"⟩ =
      ⟨0, 3, [['b']], "GRAMMAR"⟩ :=
  selectBestMatch_spec.2.2.2.1 true ⟨0, 2, [['a']], "TYPOS"⟩ ⟨0, 3, [['b']], "GRAMMAR"⟩
    rfl (by decide)

theorem collectCorrections_cons_congr (text : Str) (thr : ℚ) (ca pc : Bool)
    (g : List LTMatch) (gs gs2 : List (List LTMatch))
    (h : collectCorrections text thr ca pc gs = collectCorrections text thr ca pc gs2) :
    collectCorrections text thr ca pc (g :: gs) = collectCorrections text thr ca pc (g :: gs2) := by
  simp only [collectCorrections]
  rw [h]

/-- C6: a match with zero alternative replacements has confidence 0, and
a group whose selected best match has zero alternatives contributes no
correction at all (for any threshold, including the default 0), so
nothing is spliced and no highlight entry is recorded for it. -/
theorem zeroAlternatives_neverApplied :
    (∀ m : LTMatch, m.replacements = [] → estimateConfidence m = 0) ∧
    (∀ (text : Str) (thr : ℚ) (ca pc : Bool) (gs1 : List (List LTMatch))
      (g : List LTMatch) (gs2 : List (List LTMatch)) (b : LTMatch),
      selectBestMatch g ca = some b → b.replacements = [] →
      collectCorrections text thr ca pc (gs1 ++ g :: gs2) =
        collectCorrections text thr ca pc (gs1 ++ gs2)) := by
  constructor
  · intro m h
    unfold estimateConfidence
    rw [if_pos (by simp [h])]
  · intro text thr ca pc gs1 g gs2 b hb hrepl
    induction gs1 with
    | nil =>
      simp only [List.nil_append]
      simp only [collectCorrections, hb, hrepl]
      split_ifs <;> rfl
    | cons g1 gs1 ih =>
      simp only [List.cons_append]
      exact collectCorrections_cons_congr text thr ca pc g1 _ _ ih

/-- Witness for C6: a concrete GRAMMAR match with no replacements has
confidence 0 and its group collects nothing. -/
theorem zeroAlternatives_neverApplied_witness :
    estimateConfidence ⟨0, 1, [], "GRAMMAR"⟩ = 0 ∧
    collectCorrections ['a', 'b'] 0 true true [[⟨0, 1, [], "GRAMMAR"⟩]] =
      collectCorrections ['a', 'b'] 0 true true [] :=
  ⟨zeroAlternatives_neverApplied.1 ⟨0, 1, [], "GRAMMAR"⟩ rfl,
   zeroAlternatives_neverApplied.2 ['a', 'b'] 0 true true [] [⟨0, 1, [], "GRAMMAR"⟩] []
     ⟨0, 1, [], "GRAMMAR"⟩ rfl rfl⟩

/-! ## Grouping (C1) -/

/-- Every member of the first group ends strictly before every member of
the second group starts. -/
def GroupsDisjoint (g1 g2 : List LTMatch) : Prop :=
  ∀ a ∈ g1, ∀ b ∈ g2, a.offset + a.length < b.offset

theorem groupScan_invariant :
    ∀ (ms : List LTMatch) (groups : List (List LTMatch)) (cur : List LTMatch) (e : Int),
      ms.Sorted matchOffsetLE →
      (∀ a ∈ cur, (a.offset : Int) + (a.length : Int) ≤ e) →
      (∀ a ∈ cur, ∀ b ∈ ms, a.offset ≤ b.offset) →
      List.Pairwise GroupsDisjoint groups →
      (∀ g ∈ groups, ∀ a ∈ g, ∀ b ∈ cur, a.offset + a.length < b.offset) →
      (∀ g ∈ groups, ∀ a ∈ g, ∀ b ∈ ms, a.offset + a.length < b.offset) →
      (∀ g ∈ groups, g ≠ []) →
      List.Pairwise GroupsDisjoint (groupScan ms groups cur e) ∧
      (∀ g ∈ groupScan ms groups cur e, g ≠ []) := by
  intro ms
  induction ms with
  | nil =>
    intro groups cur e _ _ _ h4 h5 _ h7
    unfold groupScan
    by_cases hc : cur.isEmpty
    · rw [if_pos hc]
      exact ⟨h4, h7⟩
    · rw [if_neg hc]
      constructor
      · rw [List.pairwise_append]
        refine ⟨h4, List.pairwise_singleton _ _, ?_⟩
        intro g hg c hc2
        rw [List.mem_singleton] at hc2
        subst hc2
        exact h5 g hg
      · intro g hg
        rcases List.mem_append.1 hg with h | h
        · exact h7 g h
        · rw [List.mem_singleton] at h
          subst h
          simpa [List.isEmpty_iff] using hc
  | cons m rest ih =>
    intro groups cur e hs h2 h3 h4 h5 h6 h7
    rw [List.sorted_cons] at hs
    by_cases hlt : (m.offset : Int) > e
    · rw [groupScan, if_pos hlt]
      have hmem2 : ∀ g ∈ (if cur.isEmpty then groups else groups ++ [cur]),
          g ∈ groups ∨ (g = cur ∧ ¬cur.isEmpty = true) := by
        by_cases hc : cur.isEmpty
        · rw [if_pos hc]
          exact fun g hg => Or.inl hg
        · rw [if_neg hc]
          intro g hg
          rcases List.mem_append.1 hg with h | h
          · exact Or.inl h
          · rw [List.mem_singleton] at h
            exact Or.inr ⟨h, hc⟩
      refine ih _ [m] _ hs.2 (by simp) ?_ ?_ ?_ ?_ ?_
      · intro a ha b hb
        rw [List.mem_singleton] at ha
        subst ha
        exact hs.1 b hb
      · by_cases hc : cur.isEmpty
        · rw [if_pos hc]
          exact h4
        · rw [if_neg hc]
          rw [List.pairwise_append]
          refine ⟨h4, List.pairwise_singleton _ _, ?_⟩
          intro g hg c hc2
          rw [List.mem_singleton] at hc2
          subst hc2
          exact h5 g hg
      · intro g hg a ha b hb
        rw [List.mem_singleton] at hb
        rcases hmem2 g hg with h | ⟨h, _⟩
        · exact h6 g h a ha b (List.mem_cons.2 (Or.inl hb))
        · subst h
          have := h2 a ha
          rw [hb]
          omega
      · intro g hg a ha b hb
        rcases hmem2 g hg with h | ⟨h, _⟩
        · exact h6 g h a ha b (List.mem_cons_of_mem m hb)
        · subst h
          have ha2 := h2 a ha
          have hb2 : m.offset ≤ b.offset := hs.1 b hb
          omega
      · intro g hg
        rcases hmem2 g hg with h | ⟨h, hc⟩
        · exact h7 g h
        · subst h
          simpa [List.isEmpty_iff] using hc
    · rw [groupScan, if_neg hlt]
      refine ih groups (cur ++ [m]) _ hs.2 ?_ ?_ h4 ?_ ?_ h7
      · intro a ha
        rcases List.mem_append.1 ha with h | h
        · exact le_trans (h2 a h) (le_max_left _ _)
        · rw [List.mem_singleton] at h
          subst h
          exact le_max_right _ _
      · intro a ha b hb
        rcases List.mem_append.1 ha with h | h
        · exact h3 a h b (List.mem_cons_of_mem m hb)
        · rw [List.mem_singleton] at h
          subst h
          exact hs.1 b hb
      · intro g hg a ha b hb
        rcases List.mem_append.1 hb with h | h
        · exact h5 g hg a ha b h
        · rw [List.mem_singleton] at h
          exact h6 g hg a ha b (List.mem_cons.2 (Or.inl h))
      · intro g hg a ha b hb
        exact h6 g hg a ha b (List.mem_cons_of_mem m hb)

theorem groupScan_mem :
    ∀ (ms : List LTMatch) (groups : List (List LTMatch)) (cur : List LTMatch) (e : Int),
      ∀ g ∈ groupScan ms groups cur e, ∀ x ∈ g,
        (∃ g2 ∈ groups, x ∈ g2) ∨ x ∈ cur ∨ x ∈ ms := by
  intro ms
  induction ms with
  | nil =>
    intro groups cur e g hg x hx
    unfold groupScan at hg
    by_cases hc : cur.isEmpty
    · rw [if_pos hc] at hg
      exact Or.inl ⟨g, hg, hx⟩
    · rw [if_neg hc] at hg
      rcases List.mem_append.1 hg with h | h
      · exact Or.inl ⟨g, h, hx⟩
      · rw [List.mem_singleton] at h
        subst h
        exact Or.inr (Or.inl hx)
  | cons m rest ih =>
    intro groups cur e g hg x hx
    rw [groupScan] at hg
    by_cases hlt : (m.offset : Int) > e
    · rw [if_pos hlt] at hg
      rcases ih _ _ _ g hg x hx with ⟨g2, hg2, hx2⟩ | h | h
      · by_cases hc : cur.isEmpty
        · rw [if_pos hc] at hg2
          exact Or.inl ⟨g2, hg2, hx2⟩
        · rw [if_neg hc] at hg2
          rcases List.mem_append.1 hg2 with h | h
          · exact Or.inl ⟨g2, h, hx2⟩
          · rw [List.mem_singleton] at h
            subst h
            exact Or.inr (Or.inl hx2)
      · rw [List.mem_singleton] at h
        exact Or.inr (Or.inr (List.mem_cons.2 (Or.inl h)))
      · exact Or.inr (Or.inr (List.mem_cons_of_mem m h))
    · rw [if_neg hlt] at hg
      rcases ih _ _ _ g hg x hx with ⟨g2, hg2, hx2⟩ | h | h
      · exact Or.inl ⟨g2, hg2, hx2⟩
      · rcases List.mem_append.1 h with h | h
        · exact Or.inr (Or.inl h)
        · rw [List.mem_singleton] at h
          exact Or.inr (Or.inr (List.mem_cons.2 (Or.inl h)))
      · exact Or.inr (Or.inr (List.mem_cons_of_mem m h))

theorem groupOverlappingMatches_pairwise (ms : List LTMatch) :
    List.Pairwise GroupsDisjoint (groupOverlappingMatches ms) ∧
    ∀ g ∈ groupOverlappingMatches ms, g ≠ [] :=
  groupScan_invariant _ [] [] (-1) (List.sorted_insertionSort _ _)
    (by simp) (by simp) (by simp) (by simp) (by simp) (by simp)

theorem groupOverlappingMatches_mem (ms : List LTMatch) :
    ∀ g ∈ groupOverlappingMatches ms, ∀ x ∈ g, x ∈ ms := by
  intro g hg x hx
  rcases groupScan_mem _ [] [] (-1) g hg x hx with ⟨g2, hg2, _⟩ | h | h
  · exact absurd hg2 (List.not_mem_nil g2)
  · exact absurd h (List.not_mem_nil x)
  · exact (List.mem_insertionSort matchOffsetLE).1 h

/-- C1: the grouper yields the empty sequence on empty input; any two
matches placed in different groups have non-overlapping (indeed
separated) spans, every member of an earlier group ending strictly
before every member of a later group starts; consequently groups are
emitted in strictly ascending order of offset. -/
theorem grouping_disjoint_ordered :
    groupOverlappingMatches [] = [] ∧
    ∀ ms : List LTMatch,
      List.Pairwise GroupsDisjoint (groupOverlappingMatches ms) ∧
      List.Pairwise (fun g1 g2 => ∀ a ∈ g1, ∀ b ∈ g2, a.offset < b.offset)
        (groupOverlappingMatches ms) := by
  refine ⟨rfl, fun ms => ⟨(groupOverlappingMatches_pairwise ms).1, ?_⟩⟩
  refine ((groupOverlappingMatches_pairwise ms).1).imp ?_
  intro g1 g2 h a ha b hb
  exact lt_of_le_of_lt (Nat.le_add_right a.offset a.length) (h a ha b hb)

/-! ## Splicing machinery (C2, C3, C10) -/

/-- Pairwise separation of collected corrections, in list order. -/
def InfosSeparated (cs : List CorrInfo) : Prop :=
  List.Pairwise (fun a b => a.offset + a.length < b.offset) cs

/-- Canonical form of applying an ascending, separated list of
corrections: `b` is the index (in the original text) where the suffix
`s` starts. -/
def spliceAllRel (b : Nat) (s : Str) : List CorrInfo → Str
  | [] => s
  | c :: cs => s.take (c.offset - b) ++ c.replacement ++
      spliceAllRel (c.offset + c.length) (s.drop (c.offset + c.length - b)) cs

theorem spliceAllRel_take (b : Nat) (s : Str) (cs : List CorrInfo) (n : Nat)
    (hn : ∀ c ∈ cs, b + n ≤ c.offset)
    (hb : ∀ c ∈ cs, c.offset + c.length ≤ b + s.length) :
    (spliceAllRel b s cs).take n = s.take n := by
  cases cs with
  | nil => rfl
  | cons c cs =>
    have h1 : b + n ≤ c.offset := hn c (List.mem_cons_self c cs)
    have h2 : c.offset + c.length ≤ b + s.length := hb c (List.mem_cons_self c cs)
    have hlen : n ≤ (s.take (c.offset - b)).length := by
      rw [List.length_take]
      omega
    rw [spliceAllRel, List.append_assoc, List.take_append_of_le_length hlen, List.take_take]
    congr 1
    omega

theorem spliceAllRel_drop (b : Nat) (s : Str) (cs : List CorrInfo) (n : Nat)
    (hn : ∀ c ∈ cs, b + n ≤ c.offset)
    (hb : ∀ c ∈ cs, c.offset + c.length ≤ b + s.length) :
    (spliceAllRel b s cs).drop n = spliceAllRel (b + n) (s.drop n) cs := by
  cases cs with
  | nil => rfl
  | cons c cs =>
    have h1 : b + n ≤ c.offset := hn c (List.mem_cons_self c cs)
    have h2 : c.offset + c.length ≤ b + s.length := hb c (List.mem_cons_self c cs)
    have hlen : n ≤ (s.take (c.offset - b)).length := by
      rw [List.length_take]
      omega
    have e1 : c.offset - b - n = c.offset - (b + n) := by omega
    have e2 : s.drop (c.offset + c.length - b) =
        (s.drop n).drop (c.offset + c.length - (b + n)) := by
      rw [List.drop_drop]
      congr 1
      omega
    rw [spliceAllRel, spliceAllRel, List.append_assoc,
      List.drop_append_of_le_length hlen, List.drop_take, e1, e2, List.append_assoc]

/-- Applying the corrections from the highest offset down (the `foldr`
view of the descending loop) produces the canonical form. -/
theorem foldr_spliceOne_eq_spliceAllRel (cs : List CorrInfo) (s : Str)
    (hpw : InfosSeparated cs)
    (hb : ∀ c ∈ cs, c.offset + c.length ≤ s.length) :
    cs.foldr (fun c t => spliceOne t c) s = spliceAllRel 0 s cs := by
  induction cs with
  | nil => rfl
  | cons c cs ih =>
    rw [InfosSeparated, List.pairwise_cons] at hpw
    have hrec := ih hpw.2 (fun c2 h => hb c2 (List.mem_cons_of_mem c h))
    rw [List.foldr_cons, hrec, spliceOne]
    rw [spliceAllRel_take 0 s cs c.offset
        (fun c2 h => by have := hpw.1 c2 h; omega)
        (fun c2 h => by have := hb c2 (List.mem_cons_of_mem c h); omega),
      spliceAllRel_drop 0 s cs (c.offset + c.length)
        (fun c2 h => by have := hpw.1 c2 h; omega)
        (fun c2 h => by have := hb c2 (List.mem_cons_of_mem c h); omega)]
    rw [spliceAllRel]
    simp

/-! ## Sorting an already separated list -/

theorem InfosSeparated.offsets_strict {cs : List CorrInfo} (h : InfosSeparated cs) :
    List.Pairwise (fun a b : CorrInfo => a.offset < b.offset) cs :=
  h.imp fun hab => by omega

theorem insertionSortGE_eq_reverse (cs : List CorrInfo) (h : InfosSeparated cs) :
    cs.insertionSort infoOffsetGE = cs.reverse := by
  have hstrict := h.offsets_strict
  have hperm : (cs.insertionSort infoOffsetGE).Perm cs.reverse :=
    (List.perm_insertionSort infoOffsetGE cs).trans cs.reverse_perm.symm
  have hsortGE : (cs.insertionSort infoOffsetGE).Sorted infoOffsetGE :=
    List.sorted_insertionSort infoOffsetGE cs
  have hne : (cs.insertionSort infoOffsetGE).Pairwise
      (fun a b : CorrInfo => a.offset ≠ b.offset) := by
    refine ((List.perm_insertionSort infoOffsetGE cs).pairwise_iff ?_).2
      (hstrict.imp fun hab => by omega)
    intro a b hab
    omega
  have hsorted1 : (cs.insertionSort infoOffsetGE).Sorted
      (fun a b : CorrInfo => b.offset < a.offset) := by
    have := hsortGE.and hne
    exact this.imp fun hab => by
      rcases hab with ⟨h1, h2⟩
      rcases Nat.lt_or_ge _ _ with h3 | h3
      · exact h3
      · exact absurd (Nat.le_antisymm h1 h3) (Ne.symm h2)
  have hsorted2 : (cs.reverse).Sorted (fun a b : CorrInfo => b.offset < a.offset) := by
    rw [List.Sorted, List.pairwise_reverse]
    exact hstrict.imp fun hab => hab
  haveI : IsAntisymm CorrInfo (fun a b : CorrInfo => b.offset < a.offset) :=
    ⟨fun a b h1 h2 => absurd h2 (Nat.lt_asymm h1)⟩
  exact List.eq_of_perm_of_sorted hperm hsorted1 hsorted2

theorem insertionSortLE_reverse_eq (cs : List CorrInfo) (h : InfosSeparated cs) :
    (cs.reverse).insertionSort infoOffsetLE = cs := by
  have hstrict := h.offsets_strict
  have hperm : ((cs.reverse).insertionSort infoOffsetLE).Perm cs :=
    (List.perm_insertionSort infoOffsetLE cs.reverse).trans cs.reverse_perm
  have hsortLE : ((cs.reverse).insertionSort infoOffsetLE).Sorted infoOffsetLE :=
    List.sorted_insertionSort infoOffsetLE cs.reverse
  have hne : ((cs.reverse).insertionSort infoOffsetLE).Pairwise
      (fun a b : CorrInfo => a.offset ≠ b.offset) := by
    refine (hperm.pairwise_iff ?_).2 (hstrict.imp fun hab => by omega)
    intro a b hab
    omega
  have hsorted1 : ((cs.reverse).insertionSort infoOffsetLE).Sorted
      (fun a b : CorrInfo => a.offset < b.offset) := by
    have := hsortLE.and hne
    exact this.imp fun hab => by
      rcases hab with ⟨h1, h2⟩
      exact Nat.lt_of_le_of_ne h1 h2
  haveI : IsAntisymm CorrInfo (fun a b : CorrInfo => a.offset < b.offset) :=
    ⟨fun a b h1 h2 => absurd h2 (Nat.lt_asymm h1)⟩
  exact List.eq_of_perm_of_sorted hperm hsorted1 hstrict

/-! ## The ascending highlight pass -/

/-- The sequence of recorded highlight positions: each entry is
`offset + delta` where `delta` accumulates `replacement.length -
original.length` over the previous entries. -/
def posList : Int → List CorrInfo → List Int
  | _, [] => []
  | delta, c :: cs => ((c.offset : Int) + delta) ::
      posList (delta + (c.replacement.length : Int) - (c.original.length : Int)) cs

/-- Cumulative length delta over the first `k` corrections. -/
def prefixDelta (cs : List CorrInfo) (k : Nat) : Int :=
  ((cs.take k).map fun c => (c.replacement.length : Int) - (c.original.length : Int)).sum

theorem highlightLoop_parts_positions (cs : List CorrInfo) :
    ∀ (t : Str) (delta : Int),
      ((highlightLoop t delta cs).2.map fun p => p.position) = posList delta cs := by
  induction cs with
  | nil => intro t delta; rfl
  | cons c cs ih =>
    intro t delta
    simp only [highlightLoop, List.map_cons, posList]
    rw [ih]

theorem highlightLoop_parts_offsets (cs : List CorrInfo) :
    ∀ (t : Str) (delta : Int),
      ((highlightLoop t delta cs).2.map fun p => p.offset) = cs.map fun c => c.offset := by
  induction cs with
  | nil => intro t delta; rfl
  | cons c cs ih =>
    intro t delta
    simp only [highlightLoop, List.map_cons]
    rw [ih]

theorem posList_eq_mapIdx (cs : List CorrInfo) :
    ∀ delta : Int,
      posList delta cs = cs.mapIdx fun k c => (c.offset : Int) + delta + prefixDelta cs k := by
  induction cs with
  | nil => intro delta; rfl
  | cons c cs ih =>
    intro delta
    rw [posList, List.mapIdx_cons, ih]
    congr 1
    · simp [prefixDelta]
    · congr 1
      funext i c2
      have : prefixDelta (c :: cs) (i + 1) =
          ((c.replacement.length : Int) - (c.original.length : Int)) + prefixDelta cs i := by
        simp [prefixDelta, List.take_succ_cons]
      rw [this]
      ring

/-- The highlight pass, run on `D ++ S` with `delta = D.length - b`,
extends `D` by the canonical splice of `S`. -/
theorem highlightLoop_text (cs : List CorrInfo) :
    ∀ (D S : Str) (b : Nat) (delta : Int),
      delta = (D.length : Int) - (b : Int) →
      (∀ c ∈ cs, b ≤ c.offset) →
      InfosSeparated cs →
      (∀ c ∈ cs, c.offset + c.length ≤ b + S.length ∧ c.original.length = c.length) →
      (highlightLoop (D ++ S) delta cs).1 = D ++ spliceAllRel b S cs := by
  induction cs with
  | nil =>
    intro D S b delta _ _ _ _
    rfl
  | cons c cs ih =>
    intro D S b delta hdelta hble hpw hib
    have hb0 : b ≤ c.offset := hble c (List.mem_cons_self c cs)
    obtain ⟨h01, h02⟩ := hib c (List.mem_cons_self c cs)
    rw [InfosSeparated, List.pairwise_cons] at hpw
    have hklen : c.offset - b ≤ S.length := by omega
    have hadj : (((c.offset : Int) + delta)).toNat = D.length + (c.offset - b) := by
      rw [hdelta]
      omega
    have hadj2 : ((c.offset : Int) + delta + (c.original.length : Int)).toNat
        = D.length + ((c.offset - b) + c.length) := by
      rw [hdelta, h02]
      omega
    have hlen_take : (S.take (c.offset - b)).length = c.offset - b := by
      rw [List.length_take]
      omega
    have e3 : (c.offset - b) + c.length = c.offset + c.length - b := by omega
    simp only [highlightLoop]
    rw [hadj, hadj2, List.take_append, List.drop_append, e3]
    have hdelta2 : delta + (c.replacement.length : Int) - (c.original.length : Int)
        = (((D ++ S.take (c.offset - b) ++ c.replacement).length : Nat) : Int)
          - ((c.offset + c.length : Nat) : Int) := by
      have hl : (D ++ S.take (c.offset - b) ++ c.replacement).length
          = D.length + (c.offset - b) + c.replacement.length := by
        simp [hlen_take]
        omega
      rw [hl, hdelta, h02]
      push_cast
      omega
    have hrec := ih (D ++ S.take (c.offset - b) ++ c.replacement)
      (S.drop (c.offset + c.length - b)) (c.offset + c.length)
      (delta + (c.replacement.length : Int) - (c.original.length : Int))
      hdelta2
      (fun c2 h => le_of_lt (hpw.1 c2 h))
      hpw.2
      (fun c2 h => by
        have h1 := (hib c2 (List.mem_cons_of_mem c h)).1
        have h2 := (hib c2 (List.mem_cons_of_mem c h)).2
        constructor
        · rw [List.length_drop]
          omega
        · exact h2)
    rw [List.append_assoc D (S.take (c.offset - b)) c.replacement] at hrec
    rw [List.append_assoc] at hrec
    rw [← List.append_assoc, ← List.append_assoc] at hrec
    rw [hrec, spliceAllRel]
    simp [List.append_assoc]

/-! ## Properties of the collection phase -/

theorem selectBestMatch_mem (g : List LTMatch) (ca : Bool) (b : LTMatch)
    (hb : selectBestMatch g ca = some b) : b ∈ g := by
  cases g with
  | nil => exact absurd hb (by simp [selectBestMatch])
  | cons g0 rest =>
    have hcons : selectBestMatch (g0 :: rest) ca =
        if (g0 :: rest).length = 1 then some g0
        else some ((g0 :: rest).foldl (selectStep ca) g0) := rfl
    rw [hcons] at hb
    split_ifs at hb with h1
    · exact (Option.some_inj.1 hb) ▸ List.mem_cons_self g0 rest
    · have hm := foldl_selectStep_mem ca (g0 :: rest) g0
      rw [← Option.some_inj.1 hb]
      rcases List.mem_cons.1 hm with h2 | h2
      · rw [h2]
        exact List.mem_cons_self g0 rest
      · exact h2

theorem jsSubstring_length (s : Str) (o l : Nat) (h : o + l ≤ s.length) :
    (jsSubstring s o (o + l)).length = l := by
  rw [jsSubstring, List.length_drop, List.length_take]
  omega

theorem collectCorrections_spec (text : Str) (thr : ℚ) (ca pc : Bool) :
    ∀ gs : List (List LTMatch),
      List.Pairwise GroupsDisjoint gs →
      (∀ g ∈ gs, ∀ m ∈ g, m.offset + m.length ≤ text.length) →
      InfosSeparated (collectCorrections text thr ca pc gs) ∧
      ∀ i ∈ collectCorrections text thr ca pc gs,
        (∃ g ∈ gs, ∃ m ∈ g, i.offset = m.offset ∧ i.length = m.length) ∧
        i.offset + i.length ≤ text.length ∧ i.original.length = i.length := by
  intro gs
  induction gs with
  | nil =>
    intro _ _
    exact ⟨List.Pairwise.nil, by simp [collectCorrections]⟩
  | cons g gs ih =>
    intro hpw hin
    rw [List.pairwise_cons] at hpw
    have ihres := ih hpw.2 (fun g2 h m hm => hin g2 (List.mem_cons_of_mem g h) m hm)
    have hskip : ∀ heq : collectCorrections text thr ca pc (g :: gs) =
          collectCorrections text thr ca pc gs,
        InfosSeparated (collectCorrections text thr ca pc (g :: gs)) ∧
        ∀ i ∈ collectCorrections text thr ca pc (g :: gs),
          (∃ g2 ∈ g :: gs, ∃ m ∈ g2, i.offset = m.offset ∧ i.length = m.length) ∧
          i.offset + i.length ≤ text.length ∧ i.original.length = i.length := by
      intro heq
      rw [heq]
      refine ⟨ihres.1, fun i hi => ?_⟩
      obtain ⟨⟨g2, hg2, m, hm, he⟩, h2⟩ := ihres.2 i hi
      exact ⟨⟨g2, List.mem_cons_of_mem g hg2, m, hm, he⟩, h2⟩
    rcases hsel : selectBestMatch g ca with _ | best
    · exact hskip (by simp only [collectCorrections, hsel])
    · have hbm : best ∈ g := selectBestMatch_mem g ca best hsel
      have hbin : best.offset + best.length ≤ text.length :=
        hin g (List.mem_cons_self g gs) best hbm
      by_cases hconf : estimateConfidence best < thr
      · exact hskip (by simp only [collectCorrections, hsel, if_pos hconf])
      · rcases hrep : best.replacements with _ | ⟨r0, rs⟩
        · exact hskip (by simp only [collectCorrections, hsel, if_neg hconf, hrep])
        · have heq : collectCorrections text thr ca pc (g :: gs) =
              { offset := best.offset, length := best.length,
                original := jsSubstring text best.offset (best.offset + best.length),
                replacement := if pc then preserveOriginalCapitalization
                    (jsSubstring text best.offset (best.offset + best.length)) r0
                  else r0 } :: collectCorrections text thr ca pc gs := by
            simp only [collectCorrections, hsel, if_neg hconf, hrep]
          rw [heq]
          constructor
          · rw [InfosSeparated, List.pairwise_cons]
            refine ⟨?_, ihres.1⟩
            intro i hi
            obtain ⟨⟨g2, hg2, m, hm, he1, he2⟩, _⟩ := ihres.2 i hi
            have := hpw.1 g2 hg2 best hbm m hm
            simp only
            omega
          · intro i hi
            rcases List.mem_cons.1 hi with h | h
            · subst h
              refine ⟨⟨g, List.mem_cons_self g gs, best, hbm, rfl, rfl⟩, hbin, ?_⟩
              exact jsSubstring_length text best.offset best.length hbin
            · obtain ⟨⟨g2, hg2, m, hm, he⟩, h2⟩ := ihres.2 i h
              exact ⟨⟨g2, List.mem_cons_of_mem g hg2, m, hm, he⟩, h2⟩

/-! ## Length accounting -/

theorem spliceAllRel_length (cs : List CorrInfo) :
    ∀ (b : Nat) (s : Str),
      (∀ c ∈ cs, b ≤ c.offset) →
      InfosSeparated cs →
      (∀ c ∈ cs, c.offset + c.length ≤ b + s.length ∧ c.original.length = c.length) →
      ((spliceAllRel b s cs).length : Int) = (s.length : Int) +
        (cs.map fun c => (c.replacement.length : Int) - (c.original.length : Int)).sum := by
  induction cs with
  | nil =>
    intro b s _ _ _
    simp [spliceAllRel]
  | cons c cs ih =>
    intro b s hble hpw hib
    have hb0 : b ≤ c.offset := hble c (List.mem_cons_self c cs)
    obtain ⟨h01, h02⟩ := hib c (List.mem_cons_self c cs)
    rw [InfosSeparated, List.pairwise_cons] at hpw
    have hrec := ih (c.offset + c.length) (s.drop (c.offset + c.length - b))
      (fun c2 h => le_of_lt (hpw.1 c2 h)) hpw.2
      (fun c2 h => by
        have h1 := (hib c2 (List.mem_cons_of_mem c h)).1
        have h2 := (hib c2 (List.mem_cons_of_mem c h)).2
        constructor
        · rw [List.length_drop]
          omega
        · exact h2)
    have hlen : (spliceAllRel b s (c :: cs)).length =
        (c.offset - b) + (c.replacement.length
          + (spliceAllRel (c.offset + c.length) (s.drop (c.offset + c.length - b)) cs).length) := by
      rw [spliceAllRel]
      simp only [List.length_append, List.length_take]
      omega
    rw [List.map_cons, List.sum_cons, hlen]
    push_cast
    rw [List.length_drop] at hrec
    omega

/-! ## The pipeline text in canonical form -/

theorem collectedInfos_spec (text : Str) (opts : CorrOptions) (ms : List LTMatch)
    (hin : ∀ m ∈ ms, m.offset + m.length ≤ text.length) :
    InfosSeparated (collectedInfos text opts ms) ∧
    ∀ c ∈ collectedInfos text opts ms,
      c.offset + c.length ≤ text.length ∧ c.original.length = c.length := by
  have hcoll := collectCorrections_spec text opts.confidenceThreshold opts.contextAware
    opts.preserveCapitalization (groupOverlappingMatches ms)
    (groupOverlappingMatches_pairwise ms).1
    (fun g hg m hm => hin m (groupOverlappingMatches_mem ms g hg m hm))
  exact ⟨hcoll.1, fun c hc => (hcoll.2 c hc).2⟩

/-- Whatever the `highlightCorrections` flag, the text field of the
pipeline result is the canonical splice of the collected corrections. -/
theorem correctPipeline_text_eq (text : Str) (opts : CorrOptions) (ms : List LTMatch)
    (hin : ∀ m ∈ ms, m.offset + m.length ≤ text.length) :
    (correctPipeline text opts ms).text =
      spliceAllRel 0 text (collectedInfos text opts ms) := by
  obtain ⟨hpw, hib⟩ := collectedInfos_spec text opts ms hin
  have hdesc : (collectedInfos text opts ms).insertionSort infoOffsetGE =
      (collectedInfos text opts ms).reverse :=
    insertionSortGE_eq_reverse _ hpw
  have hasc : ((collectedInfos text opts ms).reverse).insertionSort infoOffsetLE =
      collectedInfos text opts ms :=
    insertionSortLE_reverse_eq _ hpw
  have hfold : ((collectedInfos text opts ms).reverse).foldl spliceOne text =
      spliceAllRel 0 text (collectedInfos text opts ms) := by
    rw [List.foldl_reverse]
    exact foldr_spliceOne_eq_spliceAllRel _ text hpw (fun c h => (hib c h).1)
  have hhigh : (highlightLoop text 0 (collectedInfos text opts ms)).1 =
      spliceAllRel 0 text (collectedInfos text opts ms) := by
    have := highlightLoop_text (collectedInfos text opts ms) [] text 0 0
      (by simp) (fun c _ => Nat.zero_le _) hpw
      (fun c h => by simpa using hib c h)
    simpa using this
  simp only [correctPipeline]
  rw [hdesc]
  split_ifs with hcond
  · simp only
    rw [hasc, hhigh]
  all_goals exact hfold

/-- C2: the length of the returned corrected text minus the length of
the original text equals the sum of `replacement.length -
original.length` over the collected (applied) corrections, for matches
that address the original text (the data-model bound
`offset + length ≤ len(text)`). -/
theorem length_conservation (text : Str) (opts : CorrOptions) (ms : List LTMatch)
    (hin : ∀ m ∈ ms, m.offset + m.length ≤ text.length) :
    ((correctPipeline text opts ms).text.length : Int) - (text.length : Int) =
      ((collectedInfos text opts ms).map
        fun c => (c.replacement.length : Int) - (c.original.length : Int)).sum := by
  obtain ⟨hpw, hib⟩ := collectedInfos_spec text opts ms hin
  rw [correctPipeline_text_eq text opts ms hin,
    spliceAllRel_length (collectedInfos text opts ms) 0 text
      (fun c _ => Nat.zero_le _) hpw (fun c h => by simpa using hib c h)]
  omega

/-- Witness for C2: a two-edit example where one replacement grows the
text by 1 and the other shrinks it by 1. -/
theorem length_conservation_witness :
    ((correctPipeline "abcdef".toList defaultOptions
        [⟨0, 2, [['X', 'Y', 'Z']], "TYPOS"⟩, ⟨4, 2, [['W']], "GRAMMAR"⟩]).text.length : Int)
      - (("abcdef".toList).length : Int) =
      ((collectedInfos "abcdef".toList defaultOptions
        [⟨0, 2, [['X', 'Y', 'Z']], "TYPOS"⟩, ⟨4, 2, [['W']], "GRAMMAR"⟩]).map
        fun c => (c.replacement.length : Int) - (c.original.length : Int)).sum :=
  length_conservation "abcdef".toList defaultOptions
    [⟨0, 2, [['X', 'Y', 'Z']], "TYPOS"⟩, ⟨4, 2, [['W']], "GRAMMAR"⟩] (by decide)

/-- C10: for in-range matches, the corrected text returned by the
pipeline does not depend on the `highlightCorrections` flag: the
descending single pass and the ascending delta-tracking pass agree. -/
theorem highlight_flag_text_independent (text : Str) (thr : ℚ) (ca pc : Bool)
    (ms : List LTMatch) (hin : ∀ m ∈ ms, m.offset + m.length ≤ text.length) :
    (correctPipeline text ⟨thr, ca, pc, true⟩ ms).text =
      (correctPipeline text ⟨thr, ca, pc, false⟩ ms).text := by
  rw [correctPipeline_text_eq text ⟨thr, ca, pc, true⟩ ms hin,
    correctPipeline_text_eq text ⟨thr, ca, pc, false⟩ ms hin]
  rfl

/-- Witness for C10 at the two-edit example. -/
theorem highlight_flag_text_independent_witness :
    (correctPipeline "abcdef".toList ⟨0, true, true, true⟩
        [⟨0, 2, [['X', 'Y', 'Z']], "TYPOS"⟩, ⟨4, 2, [['W']], "GRAMMAR"⟩]).text =
      (correctPipeline "abcdef".toList ⟨0, true, true, false⟩
        [⟨0, 2, [['X', 'Y', 'Z']], "TYPOS"⟩, ⟨4, 2, [['W']], "GRAMMAR"⟩]).text :=
  highlight_flag_text_independent "abcdef".toList 0 true true
    [⟨0, 2, [['X', 'Y', 'Z']], "TYPOS"⟩, ⟨4, 2, [['W']], "GRAMMAR"⟩] (by decide)

/-! ## Highlight positions (C3) -/

/-- The list the highlight pass walks: `finalPositions` (built in
descending application order) re-sorted ascending by position. -/
def highlightOrder (text : Str) (opts : CorrOptions) (ms : List LTMatch) : List CorrInfo :=
  ((collectedInfos text opts ms).insertionSort infoOffsetGE).insertionSort infoOffsetLE

/-- C3: with highlighting on and at least one applied edit, the edits
are processed in ascending order of original offset, and the recorded
highlight position of the k-th processed edit is its original offset
plus the cumulative length delta of the previously processed edits; in
particular the first recorded position is exactly the first edit's
original offset. -/
theorem highlight_positions_cumulative (text : Str) (thr : ℚ) (ca pc : Bool)
    (ms : List LTMatch)
    (hne : collectedInfos text ⟨thr, ca, pc, true⟩ ms ≠ []) :
    ∃ parts,
      (correctPipeline text ⟨thr, ca, pc, true⟩ ms).correctedParts = some parts ∧
      (parts.map fun p => p.offset) =
        (highlightOrder text ⟨thr, ca, pc, true⟩ ms).map (fun c => c.offset) ∧
      ((highlightOrder text ⟨thr, ca, pc, true⟩ ms).map fun c => c.offset).Sorted (· ≤ ·) ∧
      (parts.map fun p => p.position) =
        (highlightOrder text ⟨thr, ca, pc, true⟩ ms).mapIdx
          (fun k c => (c.offset : Int) +
            prefixDelta (highlightOrder text ⟨thr, ca, pc, true⟩ ms) k) ∧
      ∀ p0 ps, parts = p0 :: ps →
        ∃ c0 cs, highlightOrder text ⟨thr, ca, pc, true⟩ ms = c0 :: cs ∧
          p0.position = (c0.offset : Int) := by
  have hpos : 0 < ((collectedInfos text ⟨thr, ca, pc, true⟩ ms).insertionSort
      infoOffsetGE).length := by
    rw [List.length_insertionSort]
    exact List.length_pos.2 hne
  refine ⟨(highlightLoop text 0 (highlightOrder text ⟨thr, ca, pc, true⟩ ms)).2,
    ?_, ?_, ?_, ?_, ?_⟩
  · simp only [correctPipeline]
    rw [if_pos ⟨trivial, hpos⟩]
    rfl
  · exact highlightLoop_parts_offsets _ _ _
  · exact List.pairwise_map.2 ((List.sorted_insertionSort infoOffsetLE _).imp fun h => h)
  · rw [highlightLoop_parts_positions, posList_eq_mapIdx]
    simp
  · intro p0 ps hparts
    rcases hord : highlightOrder text ⟨thr, ca, pc, true⟩ ms with _ | ⟨c0, cs⟩
    · rw [hord] at hparts
      exact absurd hparts (by simp [highlightLoop])
    · refine ⟨c0, cs, rfl, ?_⟩
      have hp := highlightLoop_parts_positions
        (highlightOrder text ⟨thr, ca, pc, true⟩ ms) text 0
      rw [hord] at hp hparts
      rw [hparts] at hp
      simp only [List.map_cons, posList] at hp
      rw [List.cons_eq_cons] at hp
      rw [hp.1]
      ring

theorem collectedInfos_witness_eval :
    collectedInfos "abcdef".toList ⟨0, true, true, true⟩
      [⟨0, 2, [['X', 'Y', 'Z']], "TYPOS"⟩] =
      [⟨0, 2, ['a', 'b'], ['X', 'Y', 'Z']⟩] := by
  rw [collectedInfos,
    show groupOverlappingMatches [⟨0, 2, [['X', 'Y', 'Z']], "TYPOS"⟩] =
      [[⟨0, 2, [['X', 'Y', 'Z']], "TYPOS"⟩]] from by decide]
  show collectCorrections "abcdef".toList 0 true true
    [[⟨0, 2, [['X', 'Y', 'Z']], "TYPOS"⟩]] = _
  rw [collectCorrections,
    show selectBestMatch [⟨0, 2, [['X', 'Y', 'Z']], "TYPOS"⟩] true =
      some ⟨0, 2, [['X', 'Y', 'Z']], "TYPOS"⟩ from rfl]
  simp only [if_neg (not_lt.2 (estimateConfidence_nonneg_le_one
    ⟨0, 2, [['X', 'Y', 'Z']], "TYPOS"⟩).1)]
  rfl

/-- Witness for C3 at a single concrete edit. -/
theorem highlight_positions_cumulative_witness :
    ∃ parts,
      (correctPipeline "abcdef".toList ⟨0, true, true, true⟩
        [⟨0, 2, [['X', 'Y', 'Z']], "TYPOS"⟩]).correctedParts = some parts ∧
      (parts.map fun p => p.position) =
        (highlightOrder "abcdef".toList ⟨0, true, true, true⟩
          [⟨0, 2, [['X', 'Y', 'Z']], "TYPOS"⟩]).mapIdx
          (fun k c => (c.offset : Int) +
            prefixDelta (highlightOrder "abcdef".toList ⟨0, true, true, true⟩
              [⟨0, 2, [['X', 'Y', 'Z']], "TYPOS"⟩]) k) := by
  obtain ⟨parts, h1, _, _, h4, _⟩ := highlight_positions_cumulative "abcdef".toList 0 true true
    [⟨0, 2, [['X', 'Y', 'Z']], "TYPOS"⟩]
    (by rw [collectedInfos_witness_eval]; exact List.cons_ne_nil _ _)
  exact ⟨parts, h1, h4⟩
